import Mathlib

/-!
Shallow embedding of `src/lfsr.py` (class `LFSR32`) from the RandomDreidel
repository, together with proofs about it.

The Python engine holds a single mutable field `_state`; we model an engine
as the `Nat` value of that field, and we model each mutating method as a
function that returns its result together with the new state.  Python
integers are unbounded, so `Nat`/`Int` model them exactly; the 32-bit
width only enters through the explicit `&&& 0xFFFFFFFF` mask and the shape
of the step function, exactly as in the source.
-/

namespace RandomDreidel

/-- The two error conditions raised by `lfsr.py`.  Both are Python
`ValueError`s; we keep them apart by the check that raises them. -/
inductive LFSRError where
  | invalidSeed
  | invalidRange
deriving DecidableEq

/-- `LFSR32._lfsr32` (src/lfsr.py lines 52-62): one step of the 32-bit
LFSR.  Taps at bit positions 31, 21, 1, 0 (0-indexed from the LSB); the
state is shifted right one bit and the feedback bit becomes the new MSB. -/
def lfsr32 (state : Nat) : Nat :=
  let bit31 := (state >>> 31) &&& 1
  let bit21 := (state >>> 21) &&& 1
  let bit1 := (state >>> 1) &&& 1
  let bit0 := state &&& 1
  let feedback := bit31 ^^^ bit21 ^^^ bit1 ^^^ bit0
  (state >>> 1) ||| (feedback <<< 31)

/-- `LFSR32.__init__` (src/lfsr.py lines 18-30): reject a zero seed,
otherwise store `seed & 0xFFFFFFFF` as the initial state. -/
def initEngine (seed : Nat) : Except LFSRError Nat :=
  if seed = 0 then Except.error LFSRError.invalidSeed
  else Except.ok (seed &&& 0xFFFFFFFF)

/-- `LFSR32._next` (src/lfsr.py lines 65-73): advance the stored state by
one step and return the new state.  Result: (returned value, new state). -/
def nextEngine (state : Nat) : Nat × Nat :=
  (lfsr32 state, lfsr32 state)

/-- `LFSR32.random_int` (src/lfsr.py lines 75-100).  Result: (returned
value or error, new state).  The `min_val > max_val` check happens before
any advancement; the full-range shortcut returns the raw value; otherwise
the value is reduced by Python `%` (floor modulus, which on a non-negative
dividend and positive divisor agrees with `Int.emod`). -/
def random_int (state : Nat) (min_val max_val : Int) : Except LFSRError Int × Nat :=
  if min_val > max_val then (Except.error LFSRError.invalidRange, state)
  else
    let value := lfsr32 state
    if min_val = 0 ∧ max_val = 0xFFFFFFFF then (Except.ok (value : Int), value)
    else
      let range_size := max_val - min_val + 1
      (Except.ok (min_val + (value : Int) % range_size), value)

/-! ### Basic facts about the step function -/

/-- Each tap extraction `(x >>> k) &&& 1` is at most 1. -/
theorem tap_le_one (x k : Nat) : (x >>> k) &&& 1 ≤ 1 :=
  Nat.and_le_right

/-- XOR of two values that are at most 1 is at most 1. -/
theorem xor_le_one {a b : Nat} (ha : a ≤ 1) (hb : b ≤ 1) : a ^^^ b ≤ 1 := by
  have hpow : (2 : Nat) ^ 1 = 2 := by norm_num
  have : a ^^^ b < 2 ^ 1 := Nat.xor_lt_two_pow (by omega) (by omega)
  omega

/-- The feedback nibble of `lfsr32` is at most 1. -/
theorem feedback_le_one (s : Nat) :
    ((s >>> 31) &&& 1) ^^^ ((s >>> 21) &&& 1) ^^^ ((s >>> 1) &&& 1) ^^^ (s &&& 1) ≤ 1 :=
  xor_le_one (xor_le_one (xor_le_one (tap_le_one s 31) (tap_le_one s 21))
    (tap_le_one s 1)) Nat.and_le_right

/-- Shifting right by one is division by two. -/
theorem shiftRight_one (s : Nat) : s >>> 1 = s / 2 := by
  rw [Nat.shiftRight_eq_div_pow]

/-- The step function keeps the state below `2 ^ 32`. -/
theorem lfsr32_lt (s : Nat) (hs : s < 2 ^ 32) : lfsr32 s < 2 ^ 32 := by
  unfold lfsr32
  apply Nat.or_lt_two_pow
  · rw [shiftRight_one]
    omega
  · have hf := feedback_le_one s
    have : (((s >>> 31) &&& 1) ^^^ ((s >>> 21) &&& 1) ^^^ ((s >>> 1) &&& 1) ^^^ (s &&& 1)) <<< 31
        = (((s >>> 31) &&& 1) ^^^ ((s >>> 21) &&& 1) ^^^ ((s >>> 1) &&& 1) ^^^ (s &&& 1)) * 2 ^ 31 :=
      Nat.shiftLeft_eq _ _
    rw [this]
    calc _ ≤ 1 * 2 ^ 31 := Nat.mul_le_mul_right _ hf
    _ < 2 ^ 32 := by norm_num

/-- A bitwise-or is zero only when both arguments are zero. -/
theorem or_eq_zero {x y : Nat} (h : x ||| y = 0) : x = 0 ∧ y = 0 := by
  have hb : ∀ i, (x ||| y).testBit i = false := fun i => by
    rw [h]; exact Nat.zero_testBit i
  constructor
  · exact Nat.eq_of_testBit_eq fun i => by
      have := hb i
      rw [Nat.testBit_or] at this
      simp [Nat.zero_testBit]
      exact (Bool.or_eq_false_iff.mp this).1
  · exact Nat.eq_of_testBit_eq fun i => by
      have := hb i
      rw [Nat.testBit_or] at this
      simp [Nat.zero_testBit]
      exact (Bool.or_eq_false_iff.mp this).2

/-- The step function sends zero to zero (the all-zero state is absorbing). -/
theorem lfsr32_zero : lfsr32 0 = 0 := by decide

/-- The step function produces zero only from the zero state. -/
theorem lfsr32_eq_zero_iff (s : Nat) : lfsr32 s = 0 ↔ s = 0 := by
  constructor
  · intro h
    unfold lfsr32 at h
    have hsr : s >>> 1 = 0 := (or_eq_zero h).1
    have hs2 : s / 2 = 0 := by rw [← shiftRight_one]; exact hsr
    have hs01 : s = 0 ∨ s = 1 := by omega
    rcases hs01 with h0 | h1
    · exact h0
    · subst h1
      exact absurd h (by decide)
  · intro h; subst h; exact lfsr32_zero

/-! ### Spec-side reading of the step function (for the refinement claim C2) -/

/-- Spec reading of the feedback bit: XOR of the bits at positions 31, 21,
1 and 0 (0-indexed from LSB) of the current 32-bit state. -/
def spec_feedback (state : Nat) : Bool :=
  (state.testBit 31) ^^ ((state.testBit 21) ^^ ((state.testBit 1) ^^ (state.testBit 0)))

/-- Spec reading of the step: `(state >> 1) | (feedback << 31)`, with the
result masked to exactly 32 bits. -/
def spec_step (state : Nat) : Nat :=
  ((state >>> 1) ||| ((spec_feedback state).toNat <<< 31)) % 2 ^ 32

/-- Extracting bit `k` as `(x >>> k) &&& 1` matches `Nat.testBit`. -/
theorem tap_eq_toNat (x k : Nat) : (x >>> k) &&& 1 = (x.testBit k).toNat := by
  rw [Nat.and_one_is_mod, Nat.shiftRight_eq_div_pow, Nat.toNat_testBit]

/-- `Nat` XOR of bit values matches `Bool` XOR. -/
theorem toNat_xor (a b : Bool) : a.toNat ^^^ b.toNat = (a ^^ b).toNat := by
  cases a <;> cases b <;> rfl

/-- The code's step function equals the spec's step function on every
32-bit state. -/
theorem lfsr32_eq_spec_step (s : Nat) (hs : s < 2 ^ 32) : lfsr32 s = spec_step s := by
  have h0 : s &&& 1 = (s.testBit 0).toNat := by
    have := tap_eq_toNat s 0
    rwa [Nat.shiftRight_zero] at this
  have hfb : ((s >>> 31) &&& 1) ^^^ ((s >>> 21) &&& 1) ^^^ ((s >>> 1) &&& 1) ^^^ (s &&& 1)
      = (spec_feedback s).toNat := by
    rw [tap_eq_toNat s 31, tap_eq_toNat s 21, tap_eq_toNat s 1, h0,
      toNat_xor, toNat_xor, toNat_xor, spec_feedback, Bool.xor_assoc, Bool.xor_assoc]
  have hmain : lfsr32 s = (s >>> 1) ||| ((spec_feedback s).toNat <<< 31) := by
    simp only [lfsr32]
    rw [hfb]
  have hlt : (s >>> 1) ||| ((spec_feedback s).toNat <<< 31) < 2 ^ 32 := by
    rw [← hmain]; exact lfsr32_lt s hs
  rw [hmain, spec_step, Nat.mod_eq_of_lt hlt]

/-! ### Behaviour of `random_int` on valid ranges -/

/-- On a valid range, `random_int` advances the state exactly once and
returns `min + (raw % range_size)`; the full-range shortcut in the code
returns the same value. -/
theorem random_int_ok (s : Nat) (mn mx : Int) (hs : s < 2 ^ 32) (h : mn ≤ mx) :
    random_int s mn mx = (Except.ok (mn + (lfsr32 s : Int) % (mx - mn + 1)), lfsr32 s) := by
  unfold random_int
  rw [if_neg (not_lt.mpr h)]
  by_cases hc : mn = 0 ∧ mx = 0xFFFFFFFF
  · obtain ⟨h1, h2⟩ := hc
    subst h1; subst h2
    rw [if_pos ⟨rfl, rfl⟩]
    have hv : (lfsr32 s : Int) % ((0xFFFFFFFF : Int) - 0 + 1) = (lfsr32 s : Int) := by
      apply Int.emod_eq_of_lt
      · exact Int.ofNat_nonneg _
      · have := lfsr32_lt s hs
        norm_num
        exact_mod_cast this
    rw [hv]
    norm_num
  · rw [if_neg hc]

/-! ### A verified GF(2) matrix representation of the step function

The step function is linear over bitwise XOR on 32-bit states, so its
iterates can be computed by square-and-multiply on the 32 x 32 GF(2)
matrix of the map.  A matrix is the list of its 32 columns, column `j`
being the image of the basis state `2 ^ j`, encoded as a `Nat`. -/

/-- Apply a column matrix to a state: XOR of the columns selected by the
set bits of `v`. -/
def applyM : List Nat → Nat → Nat
  | [], _ => 0
  | c :: cs, v => (if v % 2 = 1 then c else 0) ^^^ applyM cs (v / 2)

/-- Matrix product: apply `A` to every column of `B`. -/
def mulM (A B : List Nat) : List Nat := B.map (applyM A)

/-- The identity matrix: column `j` is `2 ^ j`. -/
def idM : List Nat := (List.range 32).map fun i => 2 ^ i

/-- The matrix of a map `g`: column `j` is `g (2 ^ j)`. -/
def matOf (g : Nat → Nat) : List Nat := (List.range 32).map fun i => g (2 ^ i)

/-- The matrix of the LFSR step function. -/
def stepM : List Nat := matOf lfsr32

/-- Binary digits of a number, least significant first (with fuel). -/
def natBits : Nat → Nat → List Bool
  | 0, _ => []
  | _ + 1, 0 => []
  | fuel + 1, n => (n % 2 == 1) :: natBits fuel (n / 2)

/-- The number encoded by a least-significant-first digit list. -/
def expOf : List Bool → Nat
  | [] => 0
  | b :: rest => (if b then 1 else 0) + 2 * expOf rest

/-- Square-and-multiply: `powChain A bits = A ^ expOf bits`. -/
def powChain (A : List Nat) : List Bool → List Nat
  | [] => idM
  | b :: rest =>
    let r := powChain A rest
    let r2 := mulM r r
    if b then mulM r2 A else r2

/-- XOR distributes over halving. -/
theorem xor_div_two (x y : Nat) : (x ^^^ y) / 2 = x / 2 ^^^ y / 2 := by
  apply Nat.eq_of_testBit_eq
  intro i
  simp [Nat.testBit_div_two, Nat.testBit_xor]

/-- XOR distributes over parity. -/
theorem xor_mod_two (x y : Nat) : (x ^^^ y) % 2 = x % 2 ^^^ y % 2 := by
  rw [← Nat.and_one_is_mod, ← Nat.and_one_is_mod, ← Nat.and_one_is_mod,
    Nat.and_xor_distrib_right]

/-- Rearrangement of a fourfold XOR. -/
theorem xor_mix (a b c d : Nat) : (a ^^^ b) ^^^ (c ^^^ d) = (a ^^^ c) ^^^ (b ^^^ d) := by
  rw [Nat.xor_assoc, Nat.xor_assoc]
  congr 1
  rw [← Nat.xor_assoc, ← Nat.xor_assoc]
  congr 1
  exact Nat.xor_comm b c

/-- Applying a matrix to the zero state gives zero. -/
theorem applyM_zero (A : List Nat) : applyM A 0 = 0 := by
  induction A with
  | nil => rfl
  | cons c cs ih => simp [applyM, ih]

/-- Applying a matrix is XOR-linear (no bound on the states needed: only
the low bits selected by the columns participate). -/
theorem applyM_xor (A : List Nat) : ∀ x y, applyM A (x ^^^ y) = applyM A x ^^^ applyM A y := by
  induction A with
  | nil => intro x y; simp [applyM]
  | cons c cs ih =>
    intro x y
    simp only [applyM]
    rw [xor_div_two, ih]
    have hsel : (if (x ^^^ y) % 2 = 1 then c else 0)
        = (if x % 2 = 1 then c else 0) ^^^ (if y % 2 = 1 then c else 0) := by
      rw [xor_mod_two]
      rcases Nat.mod_two_eq_zero_or_one x with hx | hx <;>
        rcases Nat.mod_two_eq_zero_or_one y with hy | hy <;>
          simp [hx, hy, Nat.xor_self]
    rw [hsel]
    exact xor_mix _ _ _ _

/-- A matrix with 32-bit columns produces 32-bit values. -/
theorem applyM_lt (A : List Nat) (hA : ∀ c ∈ A, c < 2 ^ 32) (v : Nat) :
    applyM A v < 2 ^ 32 := by
  induction A generalizing v with
  | nil => simp [applyM]
  | cons c cs ih =>
    simp only [applyM]
    apply Nat.xor_lt_two_pow
    · split
      · exact hA c (List.mem_cons_self c cs)
      · positivity
    · exact ih (fun d hd => hA d (List.mem_cons_of_mem c hd)) _

/-- Matrix product computes composition of the corresponding maps. -/
theorem applyM_mulM (A : List Nat) : ∀ (B : List Nat) (v : Nat),
    applyM (mulM A B) v = applyM A (applyM B v) := by
  intro B
  induction B with
  | nil => intro v; exact (applyM_zero A).symm
  | cons c cs ih =>
    intro v
    simp only [mulM, List.map_cons, applyM] at ih ⊢
    rw [applyM_xor A]
    have hsel : applyM A (if v % 2 = 1 then c else 0)
        = (if v % 2 = 1 then applyM A c else 0) := by
      split
      · rfl
      · exact applyM_zero A
    rw [hsel, ih]

/-! ### The step function is linear, and matrices compute its iterates -/

/-- XOR-linearity of a map on 32-bit states. -/
def LinOn (g : Nat → Nat) : Prop :=
  (∀ v, v < 2 ^ 32 → g v < 2 ^ 32) ∧
    ∀ x y, x < 2 ^ 32 → y < 2 ^ 32 → g (x ^^^ y) = g x ^^^ g y

theorem LinOn.map_zero {g : Nat → Nat} (hg : LinOn g) : g 0 = 0 := by
  have h := hg.2 0 0 (by norm_num) (by norm_num)
  simp at h
  omega

theorem linOn_id : LinOn id := ⟨fun _ hv => hv, fun _ _ _ _ => rfl⟩

/-- `testBit` of the literal 1. -/
theorem testBit_one (j : Nat) : Nat.testBit 1 j = decide (j = 0) := by
  rw [show (1 : Nat) = 2 ^ 0 by norm_num, Nat.testBit_two_pow]
  simp [eq_comm]

/-- Any bit at position 32 or above of a 32-bit value is clear. -/
theorem testBit_ge_32 {s : Nat} (hs : s < 2 ^ 32) {j : Nat} (hj : 32 ≤ j) :
    s.testBit j = false :=
  Nat.testBit_lt_two_pow (lt_of_lt_of_le hs (Nat.pow_le_pow_right (by norm_num) hj))

/-- XOR distributes over shifting left. -/
theorem shiftLeft_xor (x y n : Nat) : (x <<< n) ^^^ (y <<< n) = (x ^^^ y) <<< n := by
  apply Nat.eq_of_testBit_eq
  intro j
  simp [Nat.testBit_xor, Nat.testBit_shiftLeft, Bool.and_xor_distrib_left]

/-- XOR with the low bit set is a plain increment of an even number. -/
theorem one_xor_two_mul (m : Nat) : 1 ^^^ 2 * m = 2 * m + 1 := by
  apply Nat.eq_of_testBit_eq
  intro j
  cases j with
  | zero =>
    simp [Nat.testBit_xor, Nat.testBit_zero]
    omega
  | succ i =>
    rw [Nat.testBit_xor, Nat.testBit_add_one, Nat.testBit_add_one, Nat.testBit_add_one]
    have h1 : (1 : Nat) / 2 = 0 := by norm_num
    have h2 : 2 * m / 2 = m := by omega
    have h3 : (2 * m + 1) / 2 = m := by omega
    rw [h1, h2, h3, Nat.zero_testBit, Bool.false_xor]

/-- Splitting off the low bit turns addition into XOR. -/
theorem two_pow_xor_mul (i m : Nat) : 2 ^ i ^^^ m * 2 ^ (i + 1) = 2 ^ i + m * 2 ^ (i + 1) := by
  have h1 : m * 2 ^ (i + 1) = (2 * m) <<< i := by
    rw [Nat.shiftLeft_eq, pow_succ]
    ring
  have h2 : (2 : Nat) ^ i = 1 <<< i := by
    rw [Nat.shiftLeft_eq, one_mul]
  rw [h1, h2, shiftLeft_xor, one_xor_two_mul, Nat.shiftLeft_eq, Nat.shiftLeft_eq,
    Nat.shiftLeft_eq]
  ring

/-- An XOR-linear map is computed by its matrix of basis images: the
columns `g (2 ^ j)` for `j = i, ..., i + k - 1` applied to `v < 2 ^ k`
yield `g (v * 2 ^ i)`. -/
theorem applyM_range' (g : Nat → Nat) (hg : LinOn g) :
    ∀ (k i v : Nat), i + k ≤ 32 → v < 2 ^ k →
      applyM ((List.range' i k).map fun j => g (2 ^ j)) v = g (v * 2 ^ i) := by
  intro k
  induction k with
  | zero =>
    intro i v _ hv
    have hv0 : v = 0 := by simpa using hv
    subst hv0
    simp [applyM, hg.map_zero]
  | succ k ih =>
    intro i v h hv
    rw [List.range'_succ, List.map_cons]
    simp only [applyM]
    have hv2 : v / 2 < 2 ^ k := by
      have hpow : (2 : Nat) ^ (k + 1) = 2 ^ k * 2 := by rw [pow_succ]
      omega
    rw [ih (i + 1) (v / 2) (by omega) hv2]
    rcases Nat.mod_two_eq_zero_or_one v with h0 | h1
    · rw [if_neg (by omega)]
      have hv' : v / 2 * 2 = v := by omega
      have heq : v / 2 * 2 ^ (i + 1) = v * 2 ^ i := by
        calc v / 2 * 2 ^ (i + 1) = v / 2 * 2 * 2 ^ i := by rw [pow_succ]; ring
        _ = v * 2 ^ i := by rw [hv']
      rw [heq, Nat.zero_xor]
    · rw [if_pos h1]
      have hv' : v / 2 * 2 + 1 = v := by omega
      have heq : v * 2 ^ i = 2 ^ i ^^^ v / 2 * 2 ^ (i + 1) := by
        rw [two_pow_xor_mul]
        calc v * 2 ^ i = (v / 2 * 2 + 1) * 2 ^ i := by rw [hv']
        _ = 2 ^ i + v / 2 * (2 ^ i * 2) := by ring
        _ = 2 ^ i + v / 2 * 2 ^ (i + 1) := by rw [pow_succ]
      have hb1 : (2 : Nat) ^ i < 2 ^ 32 := Nat.pow_lt_pow_right (by norm_num) (by omega)
      have hb2 : v / 2 * 2 ^ (i + 1) < 2 ^ 32 := by
        have hlt : v / 2 * 2 ^ (i + 1) < 2 ^ k * 2 ^ (i + 1) :=
          Nat.mul_lt_mul_of_lt_of_le hv2 (Nat.le_refl _) (by positivity)
        have : (2 : Nat) ^ k * 2 ^ (i + 1) ≤ 2 ^ 32 := by
          rw [← pow_add]
          exact Nat.pow_le_pow_right (by norm_num) (by omega)
        omega
      rw [heq, hg.2 _ _ hb1 hb2]

/-- An XOR-linear map is computed by its matrix on every 32-bit state. -/
theorem applyM_matOf (g : Nat → Nat) (hg : LinOn g) (v : Nat) (hv : v < 2 ^ 32) :
    applyM (matOf g) v = g v := by
  have h := applyM_range' g hg 32 0 v (by omega) hv
  simp only [pow_zero, mul_one] at h
  rw [matOf, List.range_eq_range']
  exact h

/-- The identity matrix computes the identity on 32-bit states. -/
theorem applyM_idM (v : Nat) (hv : v < 2 ^ 32) : applyM idM v = v :=
  applyM_matOf id linOn_id v hv

/-- The step function written with a single trailing mask on the taps. -/
theorem lfsr32_eq_shift_form (s : Nat) :
    lfsr32 s = (s >>> 1) ||| ((((s >>> 31) ^^^ (s >>> 21) ^^^ (s >>> 1) ^^^ s) &&& 1) <<< 31) := by
  simp only [lfsr32]
  rw [Nat.and_xor_distrib_right, Nat.and_xor_distrib_right, Nat.and_xor_distrib_right]

/-- The step function is XOR-linear on 32-bit states. -/
theorem lfsr32_xor (a b : Nat) (ha : a < 2 ^ 32) (hb : b < 2 ^ 32) :
    lfsr32 (a ^^^ b) = lfsr32 a ^^^ lfsr32 b := by
  apply Nat.eq_of_testBit_eq
  intro i
  rw [lfsr32_eq_shift_form, lfsr32_eq_shift_form, lfsr32_eq_shift_form]
  simp only [Nat.testBit_xor, Nat.testBit_or, Nat.testBit_and, Nat.testBit_shiftLeft,
    Nat.testBit_shiftRight, testBit_one]
  rcases Nat.lt_trichotomy i 31 with hi | hi | hi
  · have hd : decide (i ≥ 31) = false := by simp; omega
    simp [hd]
  · subst hi
    have hd : decide ((31 : Nat) ≥ 31) = true := by simp
    have h32a : a.testBit 32 = false := testBit_ge_32 ha (by omega)
    have h32b : b.testBit 32 = false := testBit_ge_32 hb (by omega)
    simp [hd, h32a, h32b, Bool.xor_assoc, Bool.xor_comm, Bool.xor_left_comm]
  · have h1a : a.testBit (1 + i) = false := testBit_ge_32 ha (by omega)
    have h1b : b.testBit (1 + i) = false := testBit_ge_32 hb (by omega)
    have hne : i - 31 ≠ 0 := by omega
    simp [h1a, h1b, hne]

/-- The step function is XOR-linear with 32-bit closure. -/
theorem linOn_lfsr32 : LinOn lfsr32 := ⟨lfsr32_lt, lfsr32_xor⟩

/-- The step matrix has 32-bit columns. -/
theorem stepM_wf : ∀ c ∈ stepM, c < 2 ^ 32 := by decide

/-- Applying the step matrix is the step function, on 32-bit states. -/
theorem applyM_stepM (v : Nat) (hv : v < 2 ^ 32) : applyM stepM v = lfsr32 v :=
  applyM_matOf lfsr32 linOn_lfsr32 v hv

/-- Iterating a map with 32-bit-column matrix preserves the 32-bit bound. -/
theorem iterate_applyM_lt (A : List Nat) (hA : ∀ c ∈ A, c < 2 ^ 32) :
    ∀ (n : Nat) (w : Nat), w < 2 ^ 32 → (applyM A)^[n] w < 2 ^ 32 := by
  intro n
  induction n with
  | zero => intro w hw; simpa using hw
  | succ n ihn =>
    intro w hw
    rw [Function.iterate_succ_apply]
    exact ihn _ (applyM_lt A hA w)

/-- Square-and-multiply on the matrix computes iterates of the map. -/
theorem applyM_powChain (A : List Nat) (hA : ∀ c ∈ A, c < 2 ^ 32) :
    ∀ (bits : List Bool) (v : Nat), v < 2 ^ 32 →
      applyM (powChain A bits) v = (applyM A)^[expOf bits] v := by
  intro bits
  induction bits with
  | nil =>
    intro v hv
    simp only [powChain, expOf, Function.iterate_zero, id]
    exact applyM_idM v hv
  | cons b rest ih =>
    intro v hv
    simp only [powChain, expOf]
    cases b
    · rw [if_neg (by simp)]
      rw [applyM_mulM, ih v hv,
        ih _ (iterate_applyM_lt A hA (expOf rest) v hv),
        ← Function.iterate_add_apply]
      have he : expOf rest + expOf rest = (if false = true then 1 else 0) + 2 * expOf rest := by
        simp
        omega
      rw [he]
    · rw [if_pos rfl]
      rw [applyM_mulM, applyM_mulM, ih _ (applyM_lt A hA v),
        ih _ (iterate_applyM_lt A hA (expOf rest) _ (applyM_lt A hA v)),
        ← Function.iterate_add_apply]
      have h1 : applyM A v = (applyM A)^[1] v := (Function.iterate_one _).symm ▸ rfl
      rw [h1, ← Function.iterate_add_apply]
      have he : expOf rest + expOf rest + 1 = (if true = true then 1 else 0) + 2 * expOf rest := by
        simp
        omega
      rw [he]

/-- Iterates of the step matrix are iterates of the step function. -/
theorem iterate_stepM (n : Nat) : ∀ v, v < 2 ^ 32 → (applyM stepM)^[n] v = lfsr32^[n] v := by
  induction n with
  | zero => intro v _; rfl
  | succ n ih =>
    intro v hv
    rw [Function.iterate_succ_apply, Function.iterate_succ_apply, applyM_stepM v hv]
    exact ih _ (lfsr32_lt v hv)

set_option maxRecDepth 10000 in
/-- The true multiplicative order: 2 ^ 32 - 1 iterations do NOT return to
the seed, but 3758096377 = 7 * (2 ^ 29 - 1) iterations do.  The taps as
implemented (state bits 31, 21, 1, 0 feeding the new MSB of a right
shift) realize the recurrence with characteristic polynomial
x^32 + x^31 + x^21 + x + 1 = (x^3 + x^2 + 1)(irreducible of degree 29),
not the documented primitive x^32 + x^22 + x^2 + x + 1. -/
theorem lfsr32_true_period_of_one : lfsr32^[3758096377] 1 = 1 := by
  have h1 : (1 : Nat) < 2 ^ 32 := by norm_num
  have hsem := applyM_powChain stepM stepM_wf (natBits 40 3758096377) 1 h1
  have hexp : expOf (natBits 40 3758096377) = 3758096377 := by decide
  have hval : applyM (powChain stepM (natBits 40 3758096377)) 1 = 1 := by decide
  rw [hexp] at hsem
  rw [← iterate_stepM _ 1 h1, ← hsem, hval]

/-! ### The claims -/

/-- C2: the step function, applied to any 32-bit state, computes the
feedback bit as the XOR of the bits at positions 31, 21, 1 and 0
(0-indexed from LSB) and returns `(state >> 1) | (feedback << 31)` masked
to exactly 32 bits. -/
theorem claim_C2_step_formula (s : Nat) (hs : s < 2 ^ 32) : lfsr32 s = spec_step s :=
  lfsr32_eq_spec_step s hs

theorem claim_C2_step_formula_witness : (1 : Nat) < 2 ^ 32 ∧ lfsr32 1 = spec_step 1 :=
  ⟨by norm_num, claim_C2_step_formula 1 (by norm_num)⟩

/-- C3: on any valid range (`min <= max`), `random_int` advances the
stored state exactly once, from `s` to `lfsr32 s`, and returns
`min + (lfsr32 s mod (max - min + 1))`; the formula also covers the
full-range default call `random_int(0, 0xFFFFFFFF)`, where the code's
shortcut returns the raw value. -/
theorem claim_C3_random_int_formula (s : Nat) (mn mx : Int) (hs : s < 2 ^ 32) (h : mn ≤ mx) :
    random_int s mn mx = (Except.ok (mn + (lfsr32 s : Int) % (mx - mn + 1)), lfsr32 s) :=
  random_int_ok s mn mx hs h

theorem claim_C3_random_int_formula_witness :
    (42 : Nat) < 2 ^ 32 ∧ (0 : Int) ≤ 0xFFFFFFFF ∧
      random_int 42 0 0xFFFFFFFF
        = (Except.ok ((0 : Int) + (lfsr32 42 : Int) % ((0xFFFFFFFF : Int) - 0 + 1)), lfsr32 42) :=
  ⟨by norm_num, by norm_num, claim_C3_random_int_formula 42 0 0xFFFFFFFF (by norm_num) (by norm_num)⟩

/-- C4: on an inverted range (`min > max`), `random_int` fails with the
invalid-range error and the stored state is returned unchanged — the check
happens before any advancement. -/
theorem claim_C4_invalid_range (s : Nat) (mn mx : Int) (h : mx < mn) :
    random_int s mn mx = (Except.error LFSRError.invalidRange, s) := by
  unfold random_int
  rw [if_pos h]

theorem claim_C4_invalid_range_witness :
    random_int 42 10 5 = (Except.error LFSRError.invalidRange, 42) :=
  claim_C4_invalid_range 42 10 5 (by norm_num)

/-- C5: construction with seed 0 always fails with the invalid-seed error
and produces no engine; construction with any nonzero seed succeeds (and
stores the masked seed). -/
theorem claim_C5_zero_seed (seed : Nat) :
    (seed = 0 → initEngine seed = Except.error LFSRError.invalidSeed) ∧
      (seed ≠ 0 → initEngine seed = Except.ok (seed &&& 0xFFFFFFFF)) := by
  constructor
  · intro h; subst h; rfl
  · intro h; unfold initEngine; rw [if_neg h]

theorem claim_C5_zero_seed_witness :
    initEngine 0 = Except.error LFSRError.invalidSeed ∧ initEngine 5 = Except.ok 5 :=
  ⟨(claim_C5_zero_seed 0).1 rfl, ((claim_C5_zero_seed 5).2 (by norm_num)).trans rfl⟩

/-- C6: on any valid range the returned value lies in `[min, max]`
inclusive, and in the degenerate case `min = max` it is exactly `min`. -/
theorem claim_C6_range_containment (s : Nat) (mn mx : Int) (hs : s < 2 ^ 32) (h : mn ≤ mx) :
    ∃ v : Int, (random_int s mn mx).1 = Except.ok v ∧ mn ≤ v ∧ v ≤ mx ∧ (mn = mx → v = mn) := by
  have heq := random_int_ok s mn mx hs h
  refine ⟨mn + (lfsr32 s : Int) % (mx - mn + 1), by rw [heq], ?_, ?_, ?_⟩
  · have : 0 ≤ (lfsr32 s : Int) % (mx - mn + 1) := Int.emod_nonneg _ (by omega)
    omega
  · have : (lfsr32 s : Int) % (mx - mn + 1) < mx - mn + 1 := Int.emod_lt_of_pos _ (by omega)
    omega
  · intro he
    subst he
    have h1 : mn - mn + 1 = (1 : Int) := by ring
    rw [h1, Int.emod_one, add_zero]

theorem claim_C6_range_containment_witness :
    (7 : Nat) < 2 ^ 32 ∧ (50 : Int) ≤ 50 ∧
      ∃ v : Int, (random_int 7 50 50).1 = Except.ok v ∧ 50 ≤ v ∧ v ≤ 50 ∧ ((50 : Int) = 50 → v = 50) :=
  ⟨by norm_num, by norm_num, claim_C6_range_containment 7 50 50 (by norm_num) (by norm_num)⟩

set_option maxRecDepth 10000 in
/-- C7 (code evaluation at the failing input): iterating the step
function 2 ^ 32 - 1 times starting from the non-zero 32-bit state 1 gives
3495737714, not 1 — the generator does not have maximal period 2 ^ 32 - 1,
contrary to the claim and to the code's own docstrings. -/
theorem claim_C7_maximal_period_fails :
    lfsr32^[2 ^ 32 - 1] 1 = 3495737714 ∧ (3495737714 : Nat) ≠ 1 := by
  constructor
  · have h1 : (1 : Nat) < 2 ^ 32 := by norm_num
    have hsem := applyM_powChain stepM stepM_wf (natBits 40 (2 ^ 32 - 1)) 1 h1
    have hexp : expOf (natBits 40 (2 ^ 32 - 1)) = 2 ^ 32 - 1 := by decide
    have hval : applyM (powChain stepM (natBits 40 (2 ^ 32 - 1))) 1 = 3495737714 := by decide
    rw [hexp] at hsem
    rw [← iterate_stepM _ 1 h1, ← hsem, hval]
  · norm_num

/-- C8: a seed wider than 32 bits is not rejected but masked to its low 32
bits, and more generally every accepted construction stores exactly
`seed & 0xFFFFFFFF`. -/
theorem claim_C8_seed_masking (seed : Nat) :
    (2 ^ 32 ≤ seed → initEngine seed = Except.ok (seed &&& 0xFFFFFFFF)) ∧
      (∀ st, initEngine seed = Except.ok st → st = seed &&& 0xFFFFFFFF) := by
  constructor
  · intro h
    have hne : seed ≠ 0 := by positivity
    unfold initEngine
    rw [if_neg hne]
  · intro st h
    unfold initEngine at h
    by_cases h0 : seed = 0
    · rw [if_pos h0] at h; exact absurd h (by simp)
    · rw [if_neg h0] at h
      exact (Except.ok.injEq _ _ |>.mp h).symm

theorem claim_C8_seed_masking_witness :
    initEngine 4294967303 = Except.ok 7 := by
  have := (claim_C8_seed_masking 4294967303).1 (by norm_num)
  rw [this]
  exact rfl

/-- C9: constructing with seed 1 and calling `_next` returns exactly the
value obtained by one application of the step function to `0x00000001`,
namely `0x80000000`, and leaves the stored state equal to that value. -/
theorem claim_C9_first_output :
    initEngine 1 = Except.ok 1 ∧ nextEngine 1 = (0x80000000, 0x80000000) ∧
      lfsr32 1 = 0x80000000 := by
  refine ⟨rfl, ?_, by decide⟩
  unfold nextEngine
  rw [show lfsr32 1 = 0x80000000 from by decide]

/-- C10: every operation keeps the state below `2 ^ 32`: the constructor's
stored state is 32-bit, and the step function maps 32-bit states to 32-bit
states even without an explicit final mask. -/
theorem claim_C10_state_bound (seed st s : Nat) :
    (initEngine seed = Except.ok st → st < 2 ^ 32) ∧ (s < 2 ^ 32 → lfsr32 s < 2 ^ 32) := by
  constructor
  · intro h
    unfold initEngine at h
    by_cases h0 : seed = 0
    · rw [if_pos h0] at h; exact absurd h (by simp)
    · rw [if_neg h0] at h
      have hst : seed &&& 0xFFFFFFFF = st := Except.ok.injEq _ _ |>.mp h
      have hle : seed &&& 0xFFFFFFFF ≤ 0xFFFFFFFF := Nat.and_le_right
      have : (0xFFFFFFFF : Nat) < 2 ^ 32 := by norm_num
      omega
  · exact lfsr32_lt s

theorem claim_C10_state_bound_witness : lfsr32 3 < 2 ^ 32 :=
  (claim_C10_state_bound 1 1 3).2 (by norm_num)

/-- C1 (code evaluation at the failing input): the constructor accepts the
nonzero seed `2 ^ 32 = 0x100000000`, masks it to the all-zero 32-bit state,
and the step function then keeps that state at zero forever — the code
reaches the all-zero state that the claimed invariant rules out. -/
theorem claim_C1_zero_state_reachable :
    initEngine 4294967296 = Except.ok 0 ∧ lfsr32 0 = 0 :=
  ⟨rfl, lfsr32_zero⟩

end RandomDreidel
